import Mathlib

/-!
Shallow embedding of the `Workflow` step-execution engine of the
mkloubert/ts-toolbox repository (source file defining `Workflow`,
`WorkflowAction` and `WorkflowActionContext`).

JS values of type `any` are modelled by `Option α` over an arbitrary value
type `α`, with `none` playing the role of `undefined`/`null`.  JS truthiness
of proper values is an arbitrary parameter `truthy : α → Bool` (with
`undefined` always falsy).  A workflow action (a JS closure) is modelled by a
`Step`: a finite list of primitive operations `Op` that the action performs
on its execution context, on the shared instruction pointer and on the owning
workflow, followed by an `Outcome` describing what the action returns
(nothing, a promise, or a synchronous throw).  The run loop `nextAction` /
`actionCompleted` of `Workflow.start` is embedded as the single-iteration
function `iterate` driven by the fuel-based loop `runFrom`; `trace` is ghost
instrumentation recording the zero-based index of every action invocation.
-/

namespace TsWorkflow

/-- A primitive operation a workflow action can perform on its
`WorkflowActionContext` `ctx`, on the shared loop variable `index`, or on the
owning workflow: the control-flow methods `finish` / `goto` / `gotoFirst` /
`gotoLast`, assignments to the writable context fields `result`, `value`,
`nextValue` and `workflowState`, a read of `workflowState` materialised as an
assignment to `result`, and calls the closure can make on the owning workflow
object itself (`then()` with no argument, `reset(v)`). -/
inductive Op (α : Type) where
  | finish
  | goto (newIndex : Int)
  | gotoFirst
  | gotoLast
  | setResult (v : Option α)
  | setValue (v : Option α)
  | setNextValue (v : Option α)
  | setWorkflowState (v : Option α)
  | copyWorkflowStateToResult
  | wfThenNone
  | wfReset (newStateValue : Option α)
  deriving DecidableEq

/-- What a workflow action returns after performing its operations:
`retVoid` models returning no value (falsy, synchronous completion);
`fulfillArg v` a returned promise that fulfills passing `v` to the handler;
`fulfillNoArg` a returned promise that fulfills passing no argument (the
source inspects `arguments.length`); `rejectWith e` a returned promise that
rejects with reason `e`; `throwErr e` a synchronous `throw e`. -/
inductive Outcome (α : Type) where
  | retVoid
  | fulfillArg (v : Option α)
  | fulfillNoArg
  | rejectWith (reason : Option α)
  | throwErr (e : Option α)
  deriving DecidableEq

/-- A workflow action (`WorkflowAction`): the operations it performs followed
by what it returns. -/
structure Step (α : Type) where
  ops : List (Op α)
  outcome : Outcome α
  deriving DecidableEq

/-- The `Workflow` object: its `_actions` array (entries may be
null/undefined, since `then(action?)` pushes its possibly-absent argument)
and its public `state` field. -/
structure Workflow (α : Type) where
  actions : List (Option (Step α)) := []
  state : Option α := none
  deriving DecidableEq

/-- `Workflow.then`: pushes the (possibly absent) action and returns the
workflow.  Named `then'` because `then` is a Lean keyword. -/
def Workflow.then' (wf : Workflow α) (action : Option (Step α)) : Workflow α :=
  { wf with actions := wf.actions ++ [action] }

/-- `Workflow.next`: alias for `then`. -/
def Workflow.next (wf : Workflow α) (action : Option (Step α)) : Workflow α :=
  wf.then' action

/-- `Workflow.setState(newValue)`: assigns the `state` field. -/
def Workflow.setState (wf : Workflow α) (newValue : Option α) : Workflow α :=
  { wf with state := newValue }

/-- `Workflow.resetState()`: `setState(undefined)`. -/
def Workflow.resetState (wf : Workflow α) : Workflow α :=
  wf.setState none

/-- `Workflow.reset(newStateValue?)`: empties `_actions`, then calls
`resetState()`.  The `newStateValue` parameter is not read by the source. -/
def Workflow.reset (wf : Workflow α) (newStateValue : Option α) : Workflow α :=
  Workflow.resetState { wf with actions := [] }

/-- An error a run can fail with: the `new Error('Index out of range!')`
thrown by `goto`, or a user-supplied value thrown or used as a rejection
reason by an action. -/
inductive RunError (α : Type) where
  | rangeError
  | userError (reason : Option α)
  deriving DecidableEq

/-- JS truthiness of an optional value: `undefined` is falsy, a proper value
is as truthy as the ambient `truthy` function says. -/
def truthyOpt (truthy : α → Bool) : Option α → Bool
  | none => false
  | some v => truthy v

/-- The `WorkflowActionContext` object built afresh for each invocation.
`count`, `executions`, `index` and the positional flags are frozen at
creation; `nextValue`, `result` and `value` are writable by the action.
`workflowState` is not stored here: the source defines it with a
getter/setter pair aliasing the owning workflow's `state`, so the embedding
routes those accesses directly to the workflow (see `Op.setWorkflowState`
and `Op.copyWorkflowStateToResult`). -/
structure Ctx (α : Type) where
  count : Nat
  executions : Int
  index : Int
  isBetween : Bool
  isFirst : Bool
  isLast : Bool
  previousIndex : Option Int
  previousValue : Option α
  nextValue : Option α
  result : Option α
  value : Option α
  deriving DecidableEq

/-- The mutable environment an action body executes in: its context `ctx`,
the shared loop variable `idx` (the `index` local of `start`, mutated by the
control-flow methods), and the owning workflow object `wf`. -/
structure StepSt (α : Type) where
  ctx : Ctx α
  idx : Int
  wf : Workflow α
  deriving DecidableEq

/-- One primitive operation, against a snapshot of `count` actions.
`goto(newIndex)` first decrements its argument and throws the range error
when the decremented value falls outside `[0, count)`; `finish` sets the
shared pointer to `count - 1`; `gotoFirst` to `-1`; `gotoLast` to
`count - 1 - 1`. -/
def execOp (count : Nat) (op : Op α) (s : StepSt α) : StepSt α × Option (RunError α) :=
  match op with
  | .finish => ({ s with idx := (count : Int) - 1 }, none)
  | .goto newIndex =>
      let n := newIndex - 1
      if n < 0 ∨ n ≥ (count : Int) then (s, some .rangeError)
      else ({ s with idx := n }, none)
  | .gotoFirst => ({ s with idx := -1 }, none)
  | .gotoLast => ({ s with idx := (count : Int) - 1 - 1 }, none)
  | .setResult v => ({ s with ctx := { s.ctx with result := v } }, none)
  | .setValue v => ({ s with ctx := { s.ctx with value := v } }, none)
  | .setNextValue v => ({ s with ctx := { s.ctx with nextValue := v } }, none)
  | .setWorkflowState v => ({ s with wf := { s.wf with state := v } }, none)
  | .copyWorkflowStateToResult =>
      ({ s with ctx := { s.ctx with result := s.wf.state } }, none)
  | .wfThenNone =>
      ({ s with wf := { s.wf with actions := s.wf.actions ++ [none] } }, none)
  | .wfReset _ => ({ s with wf := { actions := [], state := none } }, none)

/-- Runs the operations of an action body in order; a thrown range error
aborts the remaining operations, as a JS exception would. -/
def execOps (count : Nat) : List (Op α) → StepSt α → StepSt α × Option (RunError α)
  | [], s => (s, none)
  | op :: rest, s =>
      match execOp count op s with
      | (s1, none) => execOps count rest s1
      | (s1, some e) => (s1, some e)

/-- The local variables of one `start()` call: the owning workflow `wf` (the
closure variable `me`), the snapshot `allActions` taken at call time, the
counters and carried values of the run loop, and the ghost `trace` of
invoked indices. -/
structure RS (α : Type) where
  wf : Workflow α
  allActions : List (Option (Step α))
  executions : Int
  index : Int
  prevIndx : Option Int
  prevVal : Option α
  result : Option α
  value : Option α
  trace : List Int
  deriving DecidableEq

/-- Array subscript semantics for `allActions[index]`: a negative or
out-of-bounds index reads `undefined`. -/
def lookupAction (A : List (Option (Step α))) (i : Int) : Option (Step α) :=
  if i < 0 then none else A.getD i.toNat none

/-- The `WorkflowActionContext` literal built by `nextAction` for the
invocation at zero-based `index` with execution counter `execs`. -/
def mkCtx (s : RS α) (index : Int) (execs : Int) : Ctx α :=
  { count := s.allActions.length
    executions := execs
    index := index
    isBetween := index > 0 && index < (s.allActions.length : Int) - 1
    isFirst := index == 0
    isLast := index == (s.allActions.length : Int) - 1
    previousIndex := s.prevIndx
    previousValue := s.prevVal
    nextValue := none
    result := s.result
    value := s.value }

/-- The environment an action invoked next on run state `s` executes in. -/
def stepStOf (s : RS α) : StepSt α :=
  { ctx := mkCtx s (s.index + 1) (s.executions + 1)
    idx := s.index + 1
    wf := s.wf }

/-- The error-free tail of `actionCompleted`: copy `previousIndex`,
`previousValue`, `result` and `value` back out of the finished context and
continue the loop.  `invoked` is the zero-based index of the invocation just
finished (recorded in the ghost trace), `pv` the value that becomes
`previousValue`. -/
def completed (s : RS α) (invoked : Int) (execs : Int) (t : StepSt α)
    (pv : Option α) : RS α :=
  { wf := t.wf
    allActions := s.allActions
    executions := execs
    index := t.idx
    prevIndx := some t.ctx.index
    prevVal := pv
    result := t.ctx.result
    value := t.ctx.value
    trace := s.trace ++ [invoked] }

/-- The observable status of a run after some iterations: the promise of
`start()` has resolved, has rejected, or the loop is still going. -/
inductive Status (α : Type) where
  | resolved (v : Option α)
  | rejected (e : RunError α)
  | running
  deriving DecidableEq

/-- One iteration of `nextAction`: pre-increment the pointer; resolve with
`result` when it passes the end; otherwise build a fresh context, invoke the
action (an absent action completes like a synchronous action that returned
nothing), and dispatch on its outcome exactly as `actionCompleted` and the
promise handlers of the source do.  A synchronous throw (including the range
error of `goto`) rejects unconditionally; a rejected returned promise first
copies the context back and then rejects only when its reason is truthy,
since `actionCompleted` guards `reject(err)` with `if (err)`. -/
def iterate (truthy : α → Bool) (s : RS α) : RS α × Status α :=
  let index := s.index + 1
  if index ≥ (s.allActions.length : Int) then (s, .resolved s.result)
  else
    let execs := s.executions + 1
    match lookupAction s.allActions index with
    | none =>
        let t := stepStOf s
        (completed s index execs t t.ctx.nextValue, .running)
    | some st =>
        match execOps s.allActions.length st.ops (stepStOf s) with
        | (t, some e) =>
            ({ s with
                wf := t.wf, executions := execs, index := t.idx,
                trace := s.trace ++ [index] }, .rejected e)
        | (t, none) =>
            match st.outcome with
            | .throwErr e =>
                ({ s with
                    wf := t.wf, executions := execs, index := t.idx,
                    trace := s.trace ++ [index] }, .rejected (.userError e))
            | .retVoid => (completed s index execs t t.ctx.nextValue, .running)
            | .fulfillNoArg => (completed s index execs t t.ctx.nextValue, .running)
            | .fulfillArg v => (completed s index execs t v, .running)
            | .rejectWith e =>
                (completed s index execs t t.ctx.nextValue,
                 if truthyOpt truthy e then .rejected (.userError e) else .running)

/-- The run loop of `start()`, driven by fuel; `.running` with fuel `0`
means the fuel ran out before the run settled. -/
def runFrom (truthy : α → Bool) : Nat → RS α → RS α × Status α
  | 0, s => (s, .running)
  | fuel + 1, s =>
      match iterate truthy s with
      | (s1, .running) => runFrom truthy fuel s1
      | (s1, st) => (s1, st)

/-- The local variables of `start(initialValue)` at entry: the snapshot
`allActions = me._actions.map(x => x)`, counters at `-1`, everything else
`undefined` except `value`, seeded from `initialValue`. -/
def initRS (wf : Workflow α) (initialValue : Option α) : RS α :=
  { wf := wf
    allActions := wf.actions
    executions := -1
    index := -1
    prevIndx := none
    prevVal := none
    result := none
    value := initialValue
    trace := [] }

/-- `Workflow.start(initialValue)`: run from the initial state. -/
def start (truthy : α → Bool) (fuel : Nat) (wf : Workflow α)
    (initialValue : Option α) : RS α × Status α :=
  runFrom truthy fuel (initRS wf initialValue)

/-- The operations that mutate the shared instruction pointer (the methods
`finish`, `goto`, `gotoFirst`, `gotoLast` of the context). -/
def isIdxOp : Op α → Bool
  | .finish => true
  | .goto _ => true
  | .gotoFirst => true
  | .gotoLast => true
  | _ => false

/-- Where a successful pointer-mutating operation leaves the shared pointer,
against a snapshot of `count` actions. -/
def idxOpTarget (count : Nat) : Op α → Int
  | .finish => (count : Int) - 1
  | .goto newIndex => newIndex - 1
  | .gotoFirst => -1
  | .gotoLast => (count : Int) - 1 - 1
  | _ => 0

/-- The effect of an action body on the pair (context `result`, workflow
`state`), recomputed as a plain fold over its operations: only `setResult`,
`setWorkflowState`, `copyWorkflowStateToResult` and `wfReset` touch the
pair. -/
def resFold (p : Option α × Option α) (op : Op α) : Option α × Option α :=
  match op with
  | .setResult v => (v, p.2)
  | .setWorkflowState v => (p.1, v)
  | .copyWorkflowStateToResult => (p.2, p.2)
  | .wfReset _ => (p.1, none)
  | _ => p

/-! ### Lemmas about single operations -/

theorem execOp_goto_err_iff (count : Nat) (n : Int) (s : StepSt α) :
    (execOp count (.goto n) s).2 = some .rangeError ↔
      n - 1 < 0 ∨ n - 1 ≥ (count : Int) := by
  simp only [execOp]
  split
  next hc => exact iff_of_true rfl hc
  next hc => exact iff_of_false (by simp) hc

theorem execOp_goto_ok_iff (count : Nat) (n : Int) (s : StepSt α) :
    (execOp count (.goto n) s).2 = none ↔
      0 ≤ n - 1 ∧ n - 1 < (count : Int) := by
  simp only [execOp]
  split
  next hc => exact iff_of_false (by simp) (by omega)
  next hc => exact iff_of_true rfl (by omega)

/-- A successful operation leaves the shared pointer at its target when it is
a pointer operation, and untouched otherwise. -/
theorem execOp_idx (count : Nat) (op : Op α) (s : StepSt α)
    (h : (execOp count op s).2 = none) :
    ((execOp count op s).1).idx =
      if isIdxOp op then idxOpTarget count op else s.idx := by
  cases op with
  | goto n =>
      simp only [execOp] at h ⊢
      split at h
      next hc => simp at h
      next hc =>
        rw [if_neg hc]
        simp [isIdxOp, idxOpTarget]
  | _ => simp [execOp, isIdxOp, idxOpTarget]

/-- Operations other than `goto` never throw. -/
theorem execOp_ok_of_not_goto (count : Nat) (op : Op α) (s : StepSt α)
    (h : ∀ n, op ≠ .goto n) : (execOp count op s).2 = none := by
  cases op with
  | goto n => exact absurd rfl (h n)
  | _ => simp [execOp]

/-- A successful operation changes the pair (context `result`, workflow
`state`) exactly as `resFold` says. -/
theorem execOp_resFold (count : Nat) (op : Op α) (s : StepSt α)
    (h : (execOp count op s).2 = none) :
    (((execOp count op s).1).ctx.result, ((execOp count op s).1).wf.state)
      = resFold (s.ctx.result, s.wf.state) op := by
  cases op with
  | goto n =>
      simp only [execOp] at h ⊢
      split at h
      next hc => simp at h
      next hc =>
        rw [if_neg hc]
        simp [resFold]
  | _ => simp [execOp, resFold]

/-! ### Lemmas about action bodies -/

theorem execOps_append (count : Nat) (xs ys : List (Op α)) (s : StepSt α) :
    execOps count (xs ++ ys) s =
      match execOps count xs s with
      | (t, none) => execOps count ys t
      | (t, some e) => (t, some e) := by
  induction xs generalizing s with
  | nil => rfl
  | cons op rest ih =>
      simp only [List.cons_append, execOps]
      rcases h : execOp count op s with ⟨s1, e⟩
      cases e <;> simp [ih]

/-- A body whose operations never touch the pointer cannot throw and leaves
the pointer untouched. -/
theorem execOps_no_idxOp (count : Nat) :
    ∀ (ops : List (Op α)) (s : StepSt α),
      (∀ op ∈ ops, isIdxOp op = false) →
      (execOps count ops s).2 = none ∧
      ((execOps count ops s).1).idx = s.idx := by
  intro ops
  induction ops with
  | nil => exact fun s _ => ⟨rfl, rfl⟩
  | cons op rest ih =>
      intro s h
      have hop : isIdxOp op = false := h op (by simp)
      have hok : (execOp count op s).2 = none := by
        apply execOp_ok_of_not_goto
        intro n hn
        rw [hn] at hop
        simp [isIdxOp] at hop
      have hidx := execOp_idx count op s hok
      rw [hop] at hidx
      simp only [if_false, Bool.false_eq_true] at hidx
      rcases hE : execOp count op s with ⟨s1, e⟩
      rw [hE] at hok hidx
      cases e with
      | some e0 => simp at hok
      | none =>
          simp only [execOps, hE]
          have := ih s1 (fun o ho => h o (by simp [ho]))
          exact ⟨this.1, this.2.trans hidx⟩

/-- A one-operation body is just that operation. -/
theorem execOps_singleton (count : Nat) (x : Op α) (s : StepSt α) :
    execOps count [x] s = execOp count x s := by
  simp only [execOps]
  rcases h : execOp count x s with ⟨s1, e⟩
  cases e <;> simp [execOps]

/-- After an error-free body whose last pointer operation is `op`, the shared
pointer sits at the target of `op`. -/
theorem execOps_last_idxOp (count : Nat) :
    ∀ (ops : List (Op α)) (s t : StepSt α) (op : Op α),
      execOps count ops s = (t, none) →
      (ops.filter isIdxOp).getLast? = some op →
      t.idx = idxOpTarget count op := by
  intro ops
  induction ops using List.reverseRecOn with
  | nil =>
      intro s t op h hl
      simp at hl
  | append_singleton xs x ih =>
      intro s t op h hl
      rw [execOps_append] at h
      rcases hx : execOps count xs s with ⟨t1, e⟩
      rw [hx] at h
      cases e with
      | some e0 => simp at h
      | none =>
          simp only at h
          rw [execOps_singleton] at h
          have hok : (execOp count x t1).2 = none := by rw [h]
          have ht : (execOp count x t1).1 = t := by rw [h]
          have hidx2 := execOp_idx count x t1 hok
          by_cases hidx : isIdxOp x
          · have hop : op = x := by
              rw [List.filter_append] at hl
              have hfx : List.filter isIdxOp [x] = [x] := by
                simp [List.filter_cons, hidx]
              rw [hfx, List.getLast?_concat] at hl
              exact (Option.some.inj hl).symm
            rw [if_pos hidx] at hidx2
            rw [← ht, hidx2, hop]
          · have hl2 : (xs.filter isIdxOp).getLast? = some op := by
              rw [List.filter_append] at hl
              have hfx : List.filter isIdxOp [x] = ([] : List (Op α)) := by
                simp [List.filter_cons, hidx]
              rw [hfx, List.append_nil] at hl
              exact hl
            rw [if_neg hidx] at hidx2
            rw [← ht, hidx2]
            exact ih s t1 op hx hl2

/-- An error-free body changes the pair (context `result`, workflow `state`)
exactly as the fold of `resFold` over its operations says. -/
theorem execOps_resFold (count : Nat) :
    ∀ (ops : List (Op α)) (s t : StepSt α),
      execOps count ops s = (t, none) →
      (t.ctx.result, t.wf.state) = ops.foldl resFold (s.ctx.result, s.wf.state) := by
  intro ops
  induction ops with
  | nil =>
      intro s t h
      simp only [execOps] at h
      injection h with h1 h2
      rw [← h1]
      rfl
  | cons op rest ih =>
      intro s t h
      simp only [execOps] at h
      rcases hE : execOp count op s with ⟨s1, e⟩
      rw [hE] at h
      cases e with
      | some e0 => simp at h
      | none =>
          have hok : (execOp count op s).2 = none := by rw [hE]
          have hf := execOp_resFold count op s hok
          rw [hE] at hf
          simp only at h hf
          rw [List.foldl_cons, ← hf]
          exact ih s1 t h

/-! ### Branch lemmas for the run loop -/

theorem iterate_resolved (truthy : α → Bool) (s : RS α)
    (h : (s.allActions.length : Int) ≤ s.index + 1) :
    iterate truthy s = (s, .resolved s.result) := by
  simp only [iterate]
  rw [if_pos h]

theorem iterate_entry_none (truthy : α → Bool) (s : RS α)
    (hlt : s.index + 1 < (s.allActions.length : Int))
    (hlook : lookupAction s.allActions (s.index + 1) = none) :
    iterate truthy s =
      (completed s (s.index + 1) (s.executions + 1) (stepStOf s) none, .running) := by
  simp only [iterate]
  rw [if_neg (not_le.mpr hlt), hlook]
  rfl

theorem iterate_exec_err (truthy : α → Bool) (s : RS α) (st : Step α)
    (t : StepSt α) (e : RunError α)
    (hlt : s.index + 1 < (s.allActions.length : Int))
    (hlook : lookupAction s.allActions (s.index + 1) = some st)
    (hE : execOps s.allActions.length st.ops (stepStOf s) = (t, some e)) :
    iterate truthy s =
      ({ s with
          wf := t.wf, executions := s.executions + 1, index := t.idx,
          trace := s.trace ++ [s.index + 1] }, .rejected e) := by
  simp only [iterate]
  rw [if_neg (not_le.mpr hlt)]
  simp only [hlook, hE]

theorem iterate_throwErr (truthy : α → Bool) (s : RS α) (st : Step α)
    (t : StepSt α) (e : Option α)
    (hlt : s.index + 1 < (s.allActions.length : Int))
    (hlook : lookupAction s.allActions (s.index + 1) = some st)
    (hE : execOps s.allActions.length st.ops (stepStOf s) = (t, none))
    (hout : st.outcome = .throwErr e) :
    iterate truthy s =
      ({ s with
          wf := t.wf, executions := s.executions + 1, index := t.idx,
          trace := s.trace ++ [s.index + 1] }, .rejected (.userError e)) := by
  simp only [iterate]
  rw [if_neg (not_le.mpr hlt)]
  simp only [hlook, hE, hout]

theorem iterate_retVoid (truthy : α → Bool) (s : RS α) (st : Step α)
    (t : StepSt α)
    (hlt : s.index + 1 < (s.allActions.length : Int))
    (hlook : lookupAction s.allActions (s.index + 1) = some st)
    (hE : execOps s.allActions.length st.ops (stepStOf s) = (t, none))
    (hout : st.outcome = .retVoid) :
    iterate truthy s =
      (completed s (s.index + 1) (s.executions + 1) t t.ctx.nextValue, .running) := by
  simp only [iterate]
  rw [if_neg (not_le.mpr hlt)]
  simp only [hlook, hE, hout]

theorem iterate_fulfillNoArg (truthy : α → Bool) (s : RS α) (st : Step α)
    (t : StepSt α)
    (hlt : s.index + 1 < (s.allActions.length : Int))
    (hlook : lookupAction s.allActions (s.index + 1) = some st)
    (hE : execOps s.allActions.length st.ops (stepStOf s) = (t, none))
    (hout : st.outcome = .fulfillNoArg) :
    iterate truthy s =
      (completed s (s.index + 1) (s.executions + 1) t t.ctx.nextValue, .running) := by
  simp only [iterate]
  rw [if_neg (not_le.mpr hlt)]
  simp only [hlook, hE, hout]

theorem iterate_fulfillArg (truthy : α → Bool) (s : RS α) (st : Step α)
    (t : StepSt α) (v : Option α)
    (hlt : s.index + 1 < (s.allActions.length : Int))
    (hlook : lookupAction s.allActions (s.index + 1) = some st)
    (hE : execOps s.allActions.length st.ops (stepStOf s) = (t, none))
    (hout : st.outcome = .fulfillArg v) :
    iterate truthy s =
      (completed s (s.index + 1) (s.executions + 1) t v, .running) := by
  simp only [iterate]
  rw [if_neg (not_le.mpr hlt)]
  simp only [hlook, hE, hout]

theorem iterate_rejectWith (truthy : α → Bool) (s : RS α) (st : Step α)
    (t : StepSt α) (e : Option α)
    (hlt : s.index + 1 < (s.allActions.length : Int))
    (hlook : lookupAction s.allActions (s.index + 1) = some st)
    (hE : execOps s.allActions.length st.ops (stepStOf s) = (t, none))
    (hout : st.outcome = .rejectWith e) :
    iterate truthy s =
      (completed s (s.index + 1) (s.executions + 1) t t.ctx.nextValue,
       if truthyOpt truthy e then .rejected (.userError e) else .running) := by
  simp only [iterate]
  rw [if_neg (not_le.mpr hlt)]
  simp only [hlook, hE, hout]

theorem runFrom_succ (truthy : α → Bool) (fuel : Nat) (s : RS α) :
    runFrom truthy (fuel + 1) s =
      match iterate truthy s with
      | (s1, .running) => runFrom truthy fuel s1
      | (s1, st) => (s1, st) := rfl

/-- Once `iterate` rejects, the whole run rejects there: the loop never
resumes after `reject`. -/
theorem runFrom_of_iterate_rejected (truthy : α → Bool) (fuel : Nat)
    (s s1 : RS α) (e : RunError α) (h : iterate truthy s = (s1, .rejected e)) :
    runFrom truthy (fuel + 1) s = (s1, .rejected e) := by
  rw [runFrom_succ, h]

/-- Once `iterate` continues, the run is the run from the next state. -/
theorem runFrom_of_iterate_running (truthy : α → Bool) (fuel : Nat)
    (s s1 : RS α) (h : iterate truthy s = (s1, .running)) :
    runFrom truthy (fuel + 1) s = runFrom truthy fuel s1 := by
  rw [runFrom_succ, h]

/-- Once `iterate` resolves, the whole run resolves there. -/
theorem runFrom_of_iterate_resolved (truthy : α → Bool) (fuel : Nat)
    (s s1 : RS α) (v : Option α) (h : iterate truthy s = (s1, .resolved v)) :
    runFrom truthy (fuel + 1) s = (s1, .resolved v) := by
  rw [runFrom_succ, h]

/-- A settled run result is stable under extra fuel. -/
theorem runFrom_fuel_mono (truthy : α → Bool) :
    ∀ (fuel fuel2 : Nat) (s t : RS α) (st : Status α),
      runFrom truthy fuel s = (t, st) → st ≠ .running → fuel ≤ fuel2 →
      runFrom truthy fuel2 s = (t, st) := by
  intro fuel
  induction fuel with
  | zero =>
      intro fuel2 s t st h hne _
      simp only [runFrom] at h
      cases h
      exact absurd rfl hne
  | succ n ih =>
      intro fuel2 s t st h hne hle
      obtain ⟨m, rfl⟩ : ∃ m, fuel2 = m + 1 :=
        ⟨fuel2 - 1, by omega⟩
      rw [runFrom_succ] at h
      rw [runFrom_succ]
      rcases hit : iterate truthy s with ⟨s1, st1⟩
      rw [hit] at h
      cases st1 with
      | running =>
          simp only at h
          exact ih m s1 t st h hne (by omega)
      | resolved v => simpa using h
      | rejected e => simpa using h

/-! ### Classification of actions and lookup facts -/

/-- The outcomes by which an action completes without error: it returned
nothing, or its returned promise fulfilled. -/
def okOutcome : Outcome α → Bool
  | .retVoid => true
  | .fulfillArg _ => true
  | .fulfillNoArg => true
  | _ => false

/-- An entry of the action list that neither redirects control flow nor
fails: absent, or an action with no pointer operation and an error-free
outcome. -/
def tameEntry : Option (Step α) → Bool
  | none => true
  | some st => st.ops.all (fun op => !isIdxOp op) && okOutcome st.outcome

/-- The effect of one entry on the pair (run `result`, workflow `state`):
an absent entry changes nothing, an action folds its operations. -/
def stepRes (p : Option α × Option α) : Option (Step α) → Option α × Option α
  | none => p
  | some st => st.ops.foldl resFold p

/-- A synchronous action that performs nothing, returns nothing and sets no
`nextValue`. -/
def noopStep : Step α := ⟨[], .retVoid⟩

/-- The operations that write the workflow `state` (an assignment through
the `workflowState` alias, or `reset`, which clears the state). -/
def stateOpFree : Op α → Bool
  | .setWorkflowState _ => false
  | .wfReset _ => false
  | _ => true

/-- Entries that never write the workflow `state`. -/
def entryStateFree : Option (Step α) → Bool
  | none => true
  | some st => st.ops.all stateOpFree

/-- JS number truthiness, used to instantiate the embedding at `α = Nat` on
concrete runs: `0` is falsy, other numbers truthy. -/
def natTruthy (n : Nat) : Bool := n != 0

theorem lookupAction_eq_some (A : List (Option (Step α))) (i : Int) (st : Step α)
    (h : lookupAction A i = some st) :
    0 ≤ i ∧ A.get? i.toNat = some (some st) := by
  unfold lookupAction at h
  split at h
  · exact absurd h (by simp)
  next hneg =>
    refine ⟨by omega, ?_⟩
    rcases hg : A.get? i.toNat with _ | e
    · rw [List.getD_eq_get?, hg] at h
      simp at h
    · rw [List.getD_eq_get?, hg] at h
      simp only [Option.getD_some] at h
      rw [h]

theorem lookupAction_mem (A : List (Option (Step α))) (i : Int) (st : Step α)
    (h : lookupAction A i = some st) : some st ∈ A := by
  have h2 := (lookupAction_eq_some A i st h).2
  exact List.get?_mem h2

theorem lookupAction_lt_length (A : List (Option (Step α))) (i : Int) (st : Step α)
    (h : lookupAction A i = some st) : i.toNat < A.length := by
  have h2 := (lookupAction_eq_some A i st h).2
  exact (List.get?_eq_some.mp h2).1

/-! ### Field facts about one loop iteration -/

/-- The snapshot of the action list is constant across the run: no branch of
`nextAction` writes `allActions`. -/
theorem iterate_allActions (truthy : α → Bool) (s : RS α) :
    ((iterate truthy s).1).allActions = s.allActions := by
  simp only [iterate]
  by_cases hge : (s.allActions.length : Int) ≤ s.index + 1
  · rw [if_pos hge]
  · rw [if_neg hge]
    cases hlook : lookupAction s.allActions (s.index + 1) with
    | none => simp [completed]
    | some st =>
        simp only
        rcases hE : execOps s.allActions.length st.ops (stepStOf s) with ⟨t, e⟩
        cases e with
        | some e0 => simp
        | none => cases hO : st.outcome <;> simp [completed]

/-- Every iteration that invokes an action (absent or not) appends exactly
that invocation's index to the ghost trace. -/
theorem iterate_trace (truthy : α → Bool) (s : RS α)
    (hlt : s.index + 1 < (s.allActions.length : Int)) :
    ((iterate truthy s).1).trace = s.trace ++ [s.index + 1] := by
  simp only [iterate]
  rw [if_neg (not_le.mpr hlt)]
  cases hlook : lookupAction s.allActions (s.index + 1) with
  | none => simp [completed]
  | some st =>
      simp only
      rcases hE : execOps s.allActions.length st.ops (stepStOf s) with ⟨t, e⟩
      cases e with
      | some e0 => simp
      | none => cases hO : st.outcome <;> simp [completed]

/-- Every iteration that invokes an action increments the executions counter
by one (the `++executions` in the context literal), never resetting it. -/
theorem iterate_executions (truthy : α → Bool) (s : RS α)
    (hlt : s.index + 1 < (s.allActions.length : Int)) :
    ((iterate truthy s).1).executions = s.executions + 1 := by
  simp only [iterate]
  rw [if_neg (not_le.mpr hlt)]
  cases hlook : lookupAction s.allActions (s.index + 1) with
  | none => simp [completed]
  | some st =>
      simp only
      rcases hE : execOps s.allActions.length st.ops (stepStOf s) with ⟨t, e⟩
      cases e with
      | some e0 => simp
      | none => cases hO : st.outcome <;> simp [completed]

/-- An action that completes without error continues the run through
`actionCompleted` with some `previousValue`. -/
theorem iterate_ok_shape (truthy : α → Bool) (s : RS α) (st : Step α) (t : StepSt α)
    (hlt : s.index + 1 < (s.allActions.length : Int))
    (hlook : lookupAction s.allActions (s.index + 1) = some st)
    (hE : execOps s.allActions.length st.ops (stepStOf s) = (t, none))
    (hout : okOutcome st.outcome = true) :
    ∃ pv, iterate truthy s =
      (completed s (s.index + 1) (s.executions + 1) t pv, .running) := by
  cases hO : st.outcome with
  | retVoid => exact ⟨t.ctx.nextValue, iterate_retVoid truthy s st t hlt hlook hE hO⟩
  | fulfillNoArg => exact ⟨t.ctx.nextValue, iterate_fulfillNoArg truthy s st t hlt hlook hE hO⟩
  | fulfillArg v => exact ⟨v, iterate_fulfillArg truthy s st t v hlt hlook hE hO⟩
  | rejectWith e => rw [hO] at hout; simp [okOutcome] at hout
  | throwErr e => rw [hO] at hout; simp [okOutcome] at hout

/-! ## Claims -/

/-- C10: for every workflow and every argument `v`, `reset(v)` empties the
step list and leaves the workflow state `undefined`; the `newStateValue`
parameter is never read (`reset v = reset v2` for all `v`, `v2`), and only a
separate `setState(v)` call assigns the state. -/
theorem c10_reset_ignores_argument (wf : Workflow α) (v v2 : Option α) :
    (wf.reset v).actions = [] ∧ (wf.reset v).state = none ∧
    wf.reset v = wf.reset v2 ∧ (wf.setState v).state = v :=
  ⟨rfl, rfl, rfl, rfl⟩

/-- C3: during a step, `goto(n)` succeeds exactly when `n - 1` lies in
`[0, stepCount)` (otherwise it throws the out-of-range error); a successful
call sets the shared instruction pointer to `n - 1`; with the pointer at
`n - 1`, the loop's pre-increment makes the action at zero-based index `n`
the next invoked one; and when `n` equals the step count the run completes
successfully with the current result. -/
theorem c3_goto_pointer_semantics (truthy : α → Bool) (count : Nat) (n : Int)
    (u : StepSt α) (s : RS α) :
    ((execOp count (.goto n) u).2 = none ↔ 0 ≤ n - 1 ∧ n - 1 < (count : Int)) ∧
    ((execOp count (.goto n) u).2 = none →
      ((execOp count (.goto n) u).1).idx = n - 1) ∧
    (s.index = n - 1 → n < (s.allActions.length : Int) →
      ((iterate truthy s).1).trace = s.trace ++ [n]) ∧
    (s.index = n - 1 → n = (s.allActions.length : Int) →
      iterate truthy s = (s, .resolved s.result)) := by
  refine ⟨execOp_goto_ok_iff count n u, ?_, ?_, ?_⟩
  · intro hok
    have h := execOp_idx count (.goto n) u hok
    simpa [isIdxOp, idxOpTarget] using h
  · intro hidx hlt
    have h := iterate_trace truthy s (by omega)
    have h2 : s.index + 1 = n := by omega
    rw [h, h2]
  · intro hidx heq
    exact iterate_resolved truthy s (by omega)

def c3u : StepSt Nat :=
  ⟨⟨2, 0, 0, false, true, false, none, none, none, none, none⟩, 0, ⟨[], none⟩⟩

def c3s : RS Nat :=
  { wf := ⟨[none, none], none⟩, allActions := [none, none], executions := 0,
    index := 0, prevIndx := none, prevVal := none, result := none,
    value := none, trace := [] }

def c3t : RS Nat :=
  { wf := ⟨[none, none], none⟩, allActions := [none, none], executions := 0,
    index := 1, prevIndx := none, prevVal := none, result := some 5,
    value := none, trace := [] }

/-- Witness for C3 at concrete inputs: `goto(1)` against 2 actions succeeds
and lands the pointer at `0`; an iteration from pointer `0` invokes index
`1`; with the pointer at `1` and `n = stepCount = 2` the run resolves. -/
theorem c3_witness :
    (execOp 2 (.goto 1) c3u).2 = none ∧
    ((execOp 2 (.goto 1) c3u).1).idx = 0 ∧
    ((iterate natTruthy c3s).1).trace = [1] ∧
    iterate natTruthy c3t = (c3t, .resolved (some 5)) := by
  have h1 := c3_goto_pointer_semantics natTruthy 2 1 c3u c3s
  have h2 := c3_goto_pointer_semantics natTruthy 2 2 c3u c3t
  have hok : (execOp 2 (.goto 1) c3u).2 = none := h1.1.mpr (by decide)
  refine ⟨hok, h1.2.1 hok, ?_, ?_⟩
  · exact (h1.2.2.1 (by decide) (by decide)).trans (by decide)
  · exact (h2.2.2.2 (by decide) (by decide)).trans (by decide)

/-- C2 counterexample: with one step, the jump target `0` lies inside
`[0, stepCount)`, yet a workflow whose only action calls `goto(0)` rejects
with the out-of-range error (the guard tests `n - 1`, not `n`); dually,
`goto(1)` with one step targets `1`, outside `[0, stepCount)`, yet the run
resolves. -/
theorem c2_range_counterexample :
    ¬ ((0 : Int) < 0 ∨ (0 : Int) ≥ 1) ∧
    (start natTruthy 2 ⟨[some ⟨[.goto 0], .retVoid⟩], none⟩ none).2
      = .rejected .rangeError ∧
    ((1 : Int) < 0 ∨ (1 : Int) ≥ 1) ∧
    (start natTruthy 2 ⟨[some ⟨[.goto 1], .retVoid⟩], none⟩ none).2
      = .resolved none := by decide

/-- C2 (amended): a step's call to `goto(n)` raises the out-of-range error
iff `n` lies outside `[1, stepCount]` — equivalently, iff `n - 1` lies
outside `[0, stepCount)` — and when an action body raises it, the run
rejects with exactly that error and no further action is invoked: the
failing invocation is the last entry of the trace, for every remaining
fuel. -/
theorem c2_goto_range_amended (truthy : α → Bool) (count : Nat) (n : Int)
    (u : StepSt α) (s : RS α) (st : Step α) (t : StepSt α) (fuel : Nat) :
    ((execOp count (.goto n) u).2 = some .rangeError ↔
      (n < 1 ∨ (count : Int) < n)) ∧
    (s.index + 1 < (s.allActions.length : Int) →
      lookupAction s.allActions (s.index + 1) = some st →
      execOps s.allActions.length st.ops (stepStOf s) = (t, some .rangeError) →
      runFrom truthy (fuel + 1) s =
        ({ s with
            wf := t.wf, executions := s.executions + 1, index := t.idx,
            trace := s.trace ++ [s.index + 1] }, .rejected .rangeError)) := by
  constructor
  · exact (execOp_goto_err_iff count n u).trans (by omega)
  · intro hlt hlook hE
    exact runFrom_of_iterate_rejected truthy fuel s _ _
      (iterate_exec_err truthy s st t .rangeError hlt hlook hE)

def c2u : StepSt Nat :=
  ⟨⟨1, 0, 0, false, true, true, none, none, none, none, none⟩, 0, ⟨[], none⟩⟩

def c2wf : Workflow Nat := ⟨[some ⟨[.goto 0], .retVoid⟩], none⟩

/-- Witness for the amended C2 at concrete inputs: `goto(0)` against one
action raises the range error, and the one-action run whose step calls
`goto(0)` rejects with it after a single invocation. -/
theorem c2_witness :
    (execOp 1 (.goto 0) c2u).2 = some .rangeError ∧
    (runFrom natTruthy 1 (initRS c2wf none)).2 = .rejected .rangeError ∧
    ((runFrom natTruthy 1 (initRS c2wf none)).1).trace = [0] := by
  have h := c2_goto_range_amended natTruthy 1 0 c2u (initRS c2wf none)
      ⟨[.goto 0], .retVoid⟩ (stepStOf (initRS c2wf none)) 0
  have h2 := h.2 (by decide) (by decide) (by decide)
  refine ⟨h.1.mpr (by decide), ?_, ?_⟩
  · rw [h2]
  · rw [h2]
    decide

/-- C4 counterexample: the first action's returned promise rejects with the
falsy reason `undefined`; `actionCompleted` treats a falsy `err` as no
error, so the second action still runs and the run resolves with its result
instead of rejecting with the rejection reason. -/
theorem c4_falsy_rejection_counterexample :
    (start natTruthy 3
        ⟨[some ⟨[], .rejectWith none⟩, some ⟨[.setResult (some 5)], .retVoid⟩],
          none⟩ none).2 = .resolved (some 5) ∧
    ((start natTruthy 3
        ⟨[some ⟨[], .rejectWith none⟩, some ⟨[.setResult (some 5)], .retVoid⟩],
          none⟩ none).1).trace = [0, 1] := by decide

/-- C4 (amended): if an action's returned promise rejects with a truthy
reason `e`, the run rejects with exactly `e` and no action is invoked after
the failing one — its index is the last trace entry and the rejection is
stable under any remaining fuel (first error wins, no retries). -/
theorem c4_truthy_rejection_rejects (truthy : α → Bool) (s : RS α) (st : Step α)
    (t : StepSt α) (e : Option α) (fuel : Nat)
    (hlt : s.index + 1 < (s.allActions.length : Int))
    (hlook : lookupAction s.allActions (s.index + 1) = some st)
    (hE : execOps s.allActions.length st.ops (stepStOf s) = (t, none))
    (hout : st.outcome = .rejectWith e)
    (htr : truthyOpt truthy e = true) :
    runFrom truthy (fuel + 1) s =
      (completed s (s.index + 1) (s.executions + 1) t t.ctx.nextValue,
       .rejected (.userError e)) := by
  have h := iterate_rejectWith truthy s st t e hlt hlook hE hout
  rw [if_pos htr] at h
  exact runFrom_of_iterate_rejected truthy fuel s _ _ h

def c4wf : Workflow Nat :=
  ⟨[some ⟨[], .rejectWith (some 7)⟩, some ⟨[.setResult (some 5)], .retVoid⟩],
   none⟩

/-- Witness for the amended C4 at concrete inputs: a two-action workflow
whose first action rejects with the truthy reason `7` rejects with exactly
that reason after invoking only action `0`. -/
theorem c4_witness :
    (runFrom natTruthy 1 (initRS c4wf none)).2 = .rejected (.userError (some 7)) ∧
    ((runFrom natTruthy 1 (initRS c4wf none)).1).trace = [0] := by
  have h := c4_truthy_rejection_rejects natTruthy (initRS c4wf none)
      ⟨[], .rejectWith (some 7)⟩ (stepStOf (initRS c4wf none)) (some 7) 0
      (by decide) (by decide) (by decide) (by decide) (by decide)
  rw [h]
  exact ⟨rfl, by decide⟩

/-- C5: an action whose last pointer operation is `finish()` and which
completes without error is the last to execute: the iteration continues with
the pointer parked at `stepCount - 1`, only this invocation was appended to
the trace, and with any remaining fuel the run resolves with the current
result. -/
theorem c5_finish_is_last (truthy : α → Bool) (s : RS α) (st : Step α) (t : StepSt α)
    (hlt : s.index + 1 < (s.allActions.length : Int))
    (hlook : lookupAction s.allActions (s.index + 1) = some st)
    (hE : execOps s.allActions.length st.ops (stepStOf s) = (t, none))
    (hfin : (st.ops.filter isIdxOp).getLast? = some .finish)
    (hout : okOutcome st.outcome = true) :
    (iterate truthy s).2 = .running ∧
    ((iterate truthy s).1).index = (s.allActions.length : Int) - 1 ∧
    ((iterate truthy s).1).trace = s.trace ++ [s.index + 1] ∧
    (∀ fuel, runFrom truthy (fuel + 2) s =
      ((iterate truthy s).1, .resolved ((iterate truthy s).1).result)) := by
  obtain ⟨pv, hiter⟩ := iterate_ok_shape truthy s st t hlt hlook hE hout
  have hidx : t.idx = (s.allActions.length : Int) - 1 := by
    have h := execOps_last_idxOp s.allActions.length st.ops (stepStOf s) t .finish hE hfin
    simpa [idxOpTarget] using h
  have h1 : ((iterate truthy s).1) = completed s (s.index + 1) (s.executions + 1) t pv := by
    rw [hiter]
  have hres : iterate truthy (completed s (s.index + 1) (s.executions + 1) t pv)
      = (completed s (s.index + 1) (s.executions + 1) t pv,
         .resolved (completed s (s.index + 1) (s.executions + 1) t pv).result) := by
    apply iterate_resolved
    simp only [completed]
    rw [hidx]
    omega
  refine ⟨by rw [hiter], ?_, ?_, ?_⟩
  · rw [h1]
    simpa [completed] using hidx
  · rw [h1]
    rfl
  · intro fuel
    rw [runFrom_of_iterate_running truthy (fuel + 1) s _ hiter, h1]
    exact runFrom_of_iterate_resolved truthy fuel _ _ _ hres

def c5wf : Workflow Nat :=
  ⟨[some ⟨[.setResult (some 3), .finish], .retVoid⟩,
    some ⟨[.setResult (some 9)], .retVoid⟩], none⟩

def c5st : Step Nat := ⟨[.setResult (some 3), .finish], .retVoid⟩

def c5t : StepSt Nat := (execOps 2 c5st.ops (stepStOf (initRS c5wf none))).1

/-- Witness for C5 at a concrete input: of two actions, the first sets the
result to `3` and calls `finish()`; only index 0 is invoked, the pointer
parks at `stepCount - 1 = 1`, and the run resolves with `3`. -/
theorem c5_witness :
    (iterate natTruthy (initRS c5wf none)).2 = .running ∧
    ((iterate natTruthy (initRS c5wf none)).1).index = 1 ∧
    ((iterate natTruthy (initRS c5wf none)).1).trace = [0] ∧
    runFrom natTruthy 2 (initRS c5wf none) =
      ((iterate natTruthy (initRS c5wf none)).1,
       .resolved ((iterate natTruthy (initRS c5wf none)).1).result) := by
  have h := c5_finish_is_last natTruthy (initRS c5wf none) c5st c5t
      (by decide) (by decide) (by decide) (by decide) (by decide)
  exact ⟨h.1, h.2.1.trans (by decide), h.2.2.1.trans (by decide), h.2.2.2 0⟩

/-- C6: after an action whose last pointer operation is `gotoFirst()`
completes without error, the pointer is `-1`, so the very next invocation of
the same run is of the action at index 0; the executions counter keeps
incrementing across the repeat — it is `+1` after the jump and `+2` when
index 0 is re-invoked, never reset. -/
theorem c6_gotoFirst_repeats (truthy : α → Bool) (s : RS α) (st : Step α) (t : StepSt α)
    (hlt : s.index + 1 < (s.allActions.length : Int))
    (hlook : lookupAction s.allActions (s.index + 1) = some st)
    (hE : execOps s.allActions.length st.ops (stepStOf s) = (t, none))
    (hfirst : (st.ops.filter isIdxOp).getLast? = some .gotoFirst)
    (hout : okOutcome st.outcome = true) :
    (iterate truthy s).2 = .running ∧
    ((iterate truthy s).1).index = -1 ∧
    ((iterate truthy s).1).executions = s.executions + 1 ∧
    ((iterate truthy s).1).trace = s.trace ++ [s.index + 1] ∧
    ((iterate truthy ((iterate truthy s).1)).1).trace
      = s.trace ++ [s.index + 1, 0] ∧
    ((iterate truthy ((iterate truthy s).1)).1).executions = s.executions + 2 := by
  obtain ⟨pv, hiter⟩ := iterate_ok_shape truthy s st t hlt hlook hE hout
  have hidx : t.idx = -1 := by
    have h := execOps_last_idxOp s.allActions.length st.ops (stepStOf s) t .gotoFirst hE hfirst
    simpa [idxOpTarget] using h
  have hlen : 0 < s.allActions.length := by
    have h := lookupAction_lt_length s.allActions (s.index + 1) st hlook
    omega
  have h1 : ((iterate truthy s).1) = completed s (s.index + 1) (s.executions + 1) t pv := by
    rw [hiter]
  have hidx1 : ((iterate truthy s).1).index = -1 := by
    rw [h1]
    simpa [completed] using hidx
  have hall1 : ((iterate truthy s).1).allActions = s.allActions := by
    rw [h1]
    rfl
  have hex1 : ((iterate truthy s).1).executions = s.executions + 1 := by
    rw [h1]
    rfl
  have htr1 : ((iterate truthy s).1).trace = s.trace ++ [s.index + 1] := by
    rw [h1]
    rfl
  have hlt1 : ((iterate truthy s).1).index + 1
      < (((iterate truthy s).1).allActions.length : Int) := by
    rw [hidx1, hall1]
    omega
  have htr2 := iterate_trace truthy ((iterate truthy s).1) hlt1
  have hex2 := iterate_executions truthy ((iterate truthy s).1) hlt1
  refine ⟨by rw [hiter], hidx1, hex1, htr1, ?_, ?_⟩
  · rw [htr2, htr1, hidx1]
    simp
  · rw [hex2, hex1]
    omega

def c6wf : Workflow Nat := ⟨[some ⟨[.gotoFirst], .retVoid⟩], none⟩

def c6st : Step Nat := ⟨[.gotoFirst], .retVoid⟩

def c6t : StepSt Nat := (execOps 1 c6st.ops (stepStOf (initRS c6wf none))).1

/-- Witness for C6 at a concrete input: a one-action workflow whose action
calls `gotoFirst()`; after the first invocation the pointer is `-1`, index 0
is invoked again next, and the executions counter reads `0` then `1`. -/
theorem c6_witness :
    (iterate natTruthy (initRS c6wf none)).2 = .running ∧
    ((iterate natTruthy (initRS c6wf none)).1).index = -1 ∧
    ((iterate natTruthy (initRS c6wf none)).1).executions = 0 ∧
    ((iterate natTruthy (initRS c6wf none)).1).trace = [0] ∧
    ((iterate natTruthy ((iterate natTruthy (initRS c6wf none)).1)).1).trace = [0, 0] ∧
    ((iterate natTruthy ((iterate natTruthy (initRS c6wf none)).1)).1).executions = 1 := by
  have h := c6_gotoFirst_repeats natTruthy (initRS c6wf none) c6st c6t
      (by decide) (by decide) (by decide) (by decide) (by decide)
  exact ⟨h.1, h.2.1, h.2.2.1.trans (by decide), h.2.2.2.1.trans (by decide),
    h.2.2.2.2.1.trans (by decide), h.2.2.2.2.2.trans (by decide)⟩

/-! ### Preservation of the workflow state -/

theorem execOp_state_pres (count : Nat) (op : Op α) (u : StepSt α)
    (h : stateOpFree op = true) :
    ((execOp count op u).1).wf.state = u.wf.state := by
  cases op <;>
    first
      | rfl
      | (simp only [execOp]; split <;> rfl)
      | (simp [stateOpFree] at h)

theorem execOps_state_pres (count : Nat) :
    ∀ (ops : List (Op α)) (u : StepSt α),
      (∀ op ∈ ops, stateOpFree op = true) →
      ((execOps count ops u).1).wf.state = u.wf.state := by
  intro ops
  induction ops with
  | nil => intro u _; rfl
  | cons op rest ih =>
      intro u h
      have hst0 := execOp_state_pres count op u (h op (by simp))
      rcases hE : execOp count op u with ⟨u1, e⟩
      rw [hE] at hst0
      cases e with
      | none =>
          simp only [execOps, hE]
          rw [ih u1 (fun o ho => h o (by simp [ho])), hst0]
      | some e0 =>
          simp only [execOps, hE]
          exact hst0

theorem iterate_state_pres (truthy : α → Bool) (s : RS α)
    (hfree : ∀ e ∈ s.allActions, entryStateFree e = true) :
    ((iterate truthy s).1).wf.state = s.wf.state := by
  simp only [iterate]
  by_cases hge : (s.allActions.length : Int) ≤ s.index + 1
  · rw [if_pos hge]
  · rw [if_neg hge]
    cases hlook : lookupAction s.allActions (s.index + 1) with
    | none => simp [completed, stepStOf]
    | some st =>
        have hmem := lookupAction_mem s.allActions (s.index + 1) st hlook
        have hops : ∀ op ∈ st.ops, stateOpFree op = true := by
          have h2 := hfree (some st) hmem
          simpa [entryStateFree, List.all_eq_true] using h2
        simp only
        rcases hE : execOps s.allActions.length st.ops (stepStOf s) with ⟨t, e⟩
        have hst : t.wf.state = s.wf.state := by
          have h2 := execOps_state_pres s.allActions.length st.ops (stepStOf s) hops
          rw [hE] at h2
          exact h2
        cases e with
        | some e0 => simpa using hst
        | none => cases hO : st.outcome <;> simp [completed] <;> exact hst

theorem runFrom_state_pres (truthy : α → Bool) :
    ∀ (fuel : Nat) (s : RS α),
      (∀ e ∈ s.allActions, entryStateFree e = true) →
      ((runFrom truthy fuel s).1).wf.state = s.wf.state := by
  intro fuel
  induction fuel with
  | zero => intro s _; rfl
  | succ n ih =>
      intro s h
      rcases hit : iterate truthy s with ⟨s1, st1⟩
      have hst : s1.wf.state = s.wf.state := by
        have h2 := iterate_state_pres truthy s h
        rw [hit] at h2
        exact h2
      have hall : s1.allActions = s.allActions := by
        have h2 := iterate_allActions truthy s
        rw [hit] at h2
        exact h2
      rw [runFrom_succ, hit]
      cases st1 with
      | running =>
          simp only
          rw [ih s1 (by rw [hall]; exact h), hst]
      | resolved v => simpa using hst
      | rejected e => simpa using hst

/-- C7: `workflowState` is a live alias of the owning workflow's `state`:
a write through it updates the workflow's `state` field immediately, a read
through it yields exactly that field, an action consisting of a
`workflowState` read observes the value left by whichever earlier step wrote
it, and as long as no executed action writes the state (and no
`reset`/`resetState`/`setState` happens), the value persists through the
whole run and hence into a subsequent `start()` call on the same
workflow. -/
theorem c7_workflowState_alias (truthy : α → Bool) (count : Nat) (v : Option α)
    (u : StepSt α) (s : RS α) (fuel : Nat) (wf : Workflow α) (iv : Option α) :
    (execOp count (.setWorkflowState v) u
      = ({ u with wf := { u.wf with state := v } }, none)) ∧
    (execOp count .copyWorkflowStateToResult u
      = ({ u with ctx := { u.ctx with result := u.wf.state } }, none)) ∧
    (s.index + 1 < (s.allActions.length : Int) →
      lookupAction s.allActions (s.index + 1)
        = some ⟨[.copyWorkflowStateToResult], .retVoid⟩ →
      ((iterate truthy s).1).result = s.wf.state ∧
      (iterate truthy s).2 = .running) ∧
    ((∀ e ∈ s.allActions, entryStateFree e = true) →
      ((runFrom truthy fuel s).1).wf.state = s.wf.state) ∧
    ((∀ e ∈ wf.actions, entryStateFree e = true) →
      ((start truthy fuel wf iv).1).wf.state = wf.state) := by
  refine ⟨rfl, rfl, ?_, fun h => runFrom_state_pres truthy fuel s h,
    fun h => runFrom_state_pres truthy fuel (initRS wf iv) h⟩
  intro hlt hlook
  have hE : execOps s.allActions.length [Op.copyWorkflowStateToResult] (stepStOf s)
      = ({ stepStOf s with
            ctx := { (stepStOf s).ctx with result := s.wf.state } }, none) := rfl
  have hiter := iterate_retVoid truthy s ⟨[.copyWorkflowStateToResult], .retVoid⟩
      _ hlt hlook hE rfl
  constructor
  · rw [hiter]
    rfl
  · rw [hiter]

def c7wf : Workflow Nat := ⟨[some ⟨[.copyWorkflowStateToResult], .retVoid⟩], some 9⟩

def c7u : StepSt Nat :=
  ⟨⟨1, 0, 0, false, true, true, none, none, none, none, none⟩, 0, ⟨[], none⟩⟩

/-- Witness for C7 at a concrete input: a workflow holding state `9` whose
only action reads `workflowState` into `result`; the run observes `9` and
the state survives the whole run (and is what a subsequent `start()` would
see). -/
theorem c7_witness :
    ((iterate natTruthy (initRS c7wf none)).1).result = some 9 ∧
    (iterate natTruthy (initRS c7wf none)).2 = .running ∧
    ((runFrom natTruthy 2 (initRS c7wf none)).1).wf.state = some 9 ∧
    ((start natTruthy 2 c7wf none).1).wf.state = some 9 := by
  have h := c7_workflowState_alias natTruthy 1 (some 9) c7u (initRS c7wf none)
      2 c7wf none
  have h3 := h.2.2.1 (by decide) (by decide)
  refine ⟨h3.1.trans (by decide), h3.2, ?_, ?_⟩
  · exact (h.2.2.2.1 (by decide)).trans (by decide)
  · exact (h.2.2.2.2 (by decide)).trans (by decide)

/-! ### The run never reads the workflow action list (only the snapshot) -/

/-- A run state with the live workflow action list replaced. -/
def RS.withWfActions (s : RS α) (L : List (Option (Step α))) : RS α :=
  { s with wf := { s.wf with actions := L } }

/-- A step environment with the live workflow action list replaced. -/
def StepSt.withWfActions (u : StepSt α) (L : List (Option (Step α))) : StepSt α :=
  { u with wf := { u.wf with actions := L } }

theorem execOp_wfActions_inv (count : Nat) (op : Op α) (u : StepSt α)
    (L : List (Option (Step α))) :
    ∃ L2, execOp count op (u.withWfActions L)
      = (((execOp count op u).1).withWfActions L2, (execOp count op u).2) := by
  cases op with
  | goto n =>
      refine ⟨L, ?_⟩
      simp only [execOp, StepSt.withWfActions]
      by_cases hc : n - 1 < 0 ∨ n - 1 ≥ (count : Int)
      · rw [if_pos hc, if_pos hc]
      · rw [if_neg hc, if_neg hc]
  | wfThenNone => exact ⟨L ++ [none], rfl⟩
  | wfReset v => exact ⟨[], rfl⟩
  | finish => exact ⟨L, rfl⟩
  | gotoFirst => exact ⟨L, rfl⟩
  | gotoLast => exact ⟨L, rfl⟩
  | setResult v => exact ⟨L, rfl⟩
  | setValue v => exact ⟨L, rfl⟩
  | setNextValue v => exact ⟨L, rfl⟩
  | setWorkflowState v => exact ⟨L, rfl⟩
  | copyWorkflowStateToResult => exact ⟨L, rfl⟩

theorem execOps_wfActions_inv (count : Nat) :
    ∀ (ops : List (Op α)) (u : StepSt α) (L : List (Option (Step α))),
      ∃ L2, execOps count ops (u.withWfActions L)
        = (((execOps count ops u).1).withWfActions L2, (execOps count ops u).2) := by
  intro ops
  induction ops with
  | nil => exact fun u L => ⟨L, rfl⟩
  | cons op rest ih =>
      intro u L
      obtain ⟨L1, h1⟩ := execOp_wfActions_inv count op u L
      rcases hE : execOp count op u with ⟨u1, e⟩
      rw [hE] at h1
      cases e with
      | some e0 =>
          refine ⟨L1, ?_⟩
          simp only [execOps, h1, hE]
      | none =>
          obtain ⟨L2, h2⟩ := ih u1 L1
          refine ⟨L2, ?_⟩
          simp only [execOps, h1, hE]
          exact h2

theorem iterate_wfActions_inv (truthy : α → Bool) (s : RS α)
    (L : List (Option (Step α))) :
    ∃ L2, iterate truthy (s.withWfActions L)
      = (((iterate truthy s).1).withWfActions L2, (iterate truthy s).2) := by
  by_cases hge : (s.allActions.length : Int) ≤ s.index + 1
  · refine ⟨L, ?_⟩
    rw [iterate_resolved truthy (s.withWfActions L) hge,
        iterate_resolved truthy s hge]
    rfl
  · have hlt : s.index + 1 < (s.allActions.length : Int) := by omega
    cases hlook : lookupAction s.allActions (s.index + 1) with
    | none =>
        refine ⟨L, ?_⟩
        rw [iterate_entry_none truthy (s.withWfActions L) hlt hlook,
            iterate_entry_none truthy s hlt hlook]
        rfl
    | some st =>
        obtain ⟨L2, hinv⟩ :=
          execOps_wfActions_inv s.allActions.length st.ops (stepStOf s) L
        rcases hE : execOps s.allActions.length st.ops (stepStOf s) with ⟨t, e⟩
        rw [hE] at hinv
        cases e with
        | some e0 =>
            refine ⟨L2, ?_⟩
            rw [iterate_exec_err truthy (s.withWfActions L) st
                  (t.withWfActions L2) e0 hlt hlook hinv,
                iterate_exec_err truthy s st t e0 hlt hlook hE]
            rfl
        | none =>
            cases hO : st.outcome with
            | throwErr e1 =>
                refine ⟨L2, ?_⟩
                rw [iterate_throwErr truthy (s.withWfActions L) st
                      (t.withWfActions L2) e1 hlt hlook hinv hO,
                    iterate_throwErr truthy s st t e1 hlt hlook hE hO]
                rfl
            | retVoid =>
                refine ⟨L2, ?_⟩
                rw [iterate_retVoid truthy (s.withWfActions L) st
                      (t.withWfActions L2) hlt hlook hinv hO,
                    iterate_retVoid truthy s st t hlt hlook hE hO]
                rfl
            | fulfillNoArg =>
                refine ⟨L2, ?_⟩
                rw [iterate_fulfillNoArg truthy (s.withWfActions L) st
                      (t.withWfActions L2) hlt hlook hinv hO,
                    iterate_fulfillNoArg truthy s st t hlt hlook hE hO]
                rfl
            | fulfillArg v =>
                refine ⟨L2, ?_⟩
                rw [iterate_fulfillArg truthy (s.withWfActions L) st
                      (t.withWfActions L2) v hlt hlook hinv hO,
                    iterate_fulfillArg truthy s st t v hlt hlook hE hO]
                rfl
            | rejectWith e1 =>
                refine ⟨L2, ?_⟩
                rw [iterate_rejectWith truthy (s.withWfActions L) st
                      (t.withWfActions L2) e1 hlt hlook hinv hO,
                    iterate_rejectWith truthy s st t e1 hlt hlook hE hO]
                rfl

theorem runFrom_wfActions_inv (truthy : α → Bool) :
    ∀ (fuel : Nat) (s : RS α) (L : List (Option (Step α))),
      ∃ L2, runFrom truthy fuel (s.withWfActions L)
        = (((runFrom truthy fuel s).1).withWfActions L2,
           (runFrom truthy fuel s).2) := by
  intro fuel
  induction fuel with
  | zero => exact fun s L => ⟨L, rfl⟩
  | succ n ih =>
      intro s L
      obtain ⟨L2, hinv⟩ := iterate_wfActions_inv truthy s L
      rcases hit : iterate truthy s with ⟨s1, st1⟩
      rw [hit] at hinv
      cases st1 with
      | running =>
          obtain ⟨L3, h3⟩ := ih s1 L2
          refine ⟨L3, ?_⟩
          rw [runFrom_of_iterate_running truthy n _ _ hinv,
              runFrom_of_iterate_running truthy n _ _ hit]
          exact h3
      | resolved v =>
          refine ⟨L2, ?_⟩
          rw [runFrom_of_iterate_resolved truthy n _ _ _ hinv,
              runFrom_of_iterate_resolved truthy n _ _ _ hit]
      | rejected e =>
          refine ⟨L2, ?_⟩
          rw [runFrom_of_iterate_rejected truthy n _ _ _ hinv,
              runFrom_of_iterate_rejected truthy n _ _ _ hit]

/-- C8: `start()` runs against the snapshot of the step list taken at call
time (`allActions` in `initRS`), and an in-progress run never reads the
workflow's live step list: changing the `actions` field of the workflow to
any other list `L` — which is what appending via `then`/`next` or clearing
via `reset` amounts to — changes neither the run's status, nor its
invocation trace, nor anything else in its final state except that same
`actions` field. -/
theorem c8_snapshot_isolation (truthy : α → Bool) (fuel : Nat) (s : RS α)
    (L : List (Option (Step α))) (wf : Workflow α) (iv : Option α) :
    ((initRS wf iv).allActions = wf.actions) ∧
    ((runFrom truthy fuel (s.withWfActions L)).2 = (runFrom truthy fuel s).2) ∧
    (((runFrom truthy fuel (s.withWfActions L)).1).trace
      = ((runFrom truthy fuel s).1).trace) ∧
    ((runFrom truthy fuel (s.withWfActions L)).1
      = ((runFrom truthy fuel s).1).withWfActions
          (((runFrom truthy fuel (s.withWfActions L)).1).wf.actions)) := by
  obtain ⟨L2, h⟩ := runFrom_wfActions_inv truthy fuel s L
  refine ⟨rfl, ?_, ?_, ?_⟩
  · rw [h]
  · rw [h]
    rfl
  · rw [h]
    rfl

/-! ### A null entry behaves as an explicit do-nothing action -/

theorem lookupAction_set_ne (A : List (Option (Step α))) (i : Nat)
    (x : Option (Step α)) (j : Int) (hj : j ≠ (i : Int)) :
    lookupAction (A.set i x) j = lookupAction A j := by
  unfold lookupAction
  by_cases hneg : j < 0
  · rw [if_pos hneg, if_pos hneg]
  · rw [if_neg hneg, if_neg hneg]
    have hne : i ≠ j.toNat := by omega
    rw [List.getD_eq_get?, List.getD_eq_get?, List.get?_set_ne x A hne]

theorem lookupAction_set_self (A : List (Option (Step α))) (i : Nat)
    (x : Option (Step α)) (hi : i < A.length) :
    lookupAction (A.set i x) (i : Int) = x := by
  unfold lookupAction
  rw [if_neg (by omega)]
  rw [List.getD_eq_get?, show ((i : Int).toNat) = i from rfl,
      List.get?_set_eq_of_lt x hi]
  rfl

theorem lookupAction_none_of_get? (A : List (Option (Step α))) (i : Nat)
    (hi : A.get? i = some none) :
    lookupAction A (i : Int) = none := by
  unfold lookupAction
  rw [if_neg (by omega)]
  rw [List.getD_eq_get?, show ((i : Int).toNat) = i from rfl, hi]
  rfl

theorem iterate_noop_set (truthy : α → Bool) (s : RS α) (i : Nat)
    (hi : s.allActions.get? i = some none) :
    iterate truthy { s with allActions := s.allActions.set i (some noopStep) }
      = ({ (iterate truthy s).1 with
            allActions := s.allActions.set i (some noopStep) },
         (iterate truthy s).2) := by
  have hilen : i < s.allActions.length := (List.get?_eq_some.mp hi).1
  have hctx : mkCtx { s with allActions := s.allActions.set i (some noopStep) }
      (s.index + 1) (s.executions + 1) = mkCtx s (s.index + 1) (s.executions + 1) := by
    simp [mkCtx, List.length_set]
  have hstep : stepStOf { s with allActions := s.allActions.set i (some noopStep) } = stepStOf s := by
    simp only [stepStOf]
    rw [hctx]
  by_cases hge : (s.allActions.length : Int) ≤ s.index + 1
  · have hgeT : ((s.allActions.set i (some noopStep)).length : Int) ≤ s.index + 1 := by
      rw [List.length_set]
      exact hge
    rw [iterate_resolved truthy { s with allActions := s.allActions.set i (some noopStep) } hgeT,
        iterate_resolved truthy s hge]
  · have hlt : s.index + 1 < (s.allActions.length : Int) := by omega
    have hltT : s.index + 1 < ((s.allActions.set i (some noopStep)).length : Int) := by
      rw [List.length_set]
      exact hlt
    by_cases hj : s.index + 1 = (i : Int)
    · have hlookS : lookupAction s.allActions (s.index + 1) = none := by
        rw [hj]
        exact lookupAction_none_of_get? s.allActions i hi
      have hlookT : lookupAction (s.allActions.set i (some noopStep)) (s.index + 1)
          = some noopStep := by
        rw [hj]
        exact lookupAction_set_self s.allActions i (some noopStep) hilen
      have hE : execOps (s.allActions.set i (some noopStep)).length
          (noopStep (α := α)).ops (stepStOf { s with allActions := s.allActions.set i (some noopStep) })
          = (stepStOf { s with allActions := s.allActions.set i (some noopStep) }, none) := rfl
      rw [iterate_retVoid truthy { s with allActions := s.allActions.set i (some noopStep) } noopStep
            (stepStOf { s with allActions := s.allActions.set i (some noopStep) }) hltT hlookT hE rfl,
          iterate_entry_none truthy s hlt hlookS, hstep]
      rfl
    · have hlookEq : lookupAction (s.allActions.set i (some noopStep)) (s.index + 1)
          = lookupAction s.allActions (s.index + 1) :=
        lookupAction_set_ne s.allActions i (some noopStep) (s.index + 1) hj
      cases hlook : lookupAction s.allActions (s.index + 1) with
      | none =>
          rw [iterate_entry_none truthy { s with allActions := s.allActions.set i (some noopStep) } hltT (hlookEq.trans hlook),
              iterate_entry_none truthy s hlt hlook, hstep]
          rfl
      | some st =>
          rcases hE : execOps s.allActions.length st.ops (stepStOf s) with ⟨t, e⟩
          have hET : execOps (s.allActions.set i (some noopStep)).length st.ops
              (stepStOf { s with allActions := s.allActions.set i (some noopStep) }) = (t, e) := by
            rw [hstep, List.length_set]
            exact hE
          cases e with
          | some e0 =>
              rw [iterate_exec_err truthy { s with allActions := s.allActions.set i (some noopStep) } st t e0 hltT (hlookEq.trans hlook) hET,
                  iterate_exec_err truthy s st t e0 hlt hlook hE]
          | none =>
              cases hO : st.outcome with
              | throwErr e1 =>
                  rw [iterate_throwErr truthy { s with allActions := s.allActions.set i (some noopStep) } st t e1 hltT (hlookEq.trans hlook) hET hO,
                      iterate_throwErr truthy s st t e1 hlt hlook hE hO]
              | retVoid =>
                  rw [iterate_retVoid truthy { s with allActions := s.allActions.set i (some noopStep) } st t hltT (hlookEq.trans hlook) hET hO,
                      iterate_retVoid truthy s st t hlt hlook hE hO]
                  rfl
              | fulfillNoArg =>
                  rw [iterate_fulfillNoArg truthy { s with allActions := s.allActions.set i (some noopStep) } st t hltT (hlookEq.trans hlook) hET hO,
                      iterate_fulfillNoArg truthy s st t hlt hlook hE hO]
                  rfl
              | fulfillArg v =>
                  rw [iterate_fulfillArg truthy { s with allActions := s.allActions.set i (some noopStep) } st t v hltT (hlookEq.trans hlook) hET hO,
                      iterate_fulfillArg truthy s st t v hlt hlook hE hO]
                  rfl
              | rejectWith e1 =>
                  rw [iterate_rejectWith truthy { s with allActions := s.allActions.set i (some noopStep) } st t e1 hltT (hlookEq.trans hlook) hET hO,
                      iterate_rejectWith truthy s st t e1 hlt hlook hE hO]
                  rfl

theorem runFrom_noop_set (truthy : α → Bool) :
    ∀ (fuel : Nat) (s : RS α) (i : Nat),
      s.allActions.get? i = some none →
      runFrom truthy fuel { s with allActions := s.allActions.set i (some noopStep) }
        = ({ (runFrom truthy fuel s).1 with
              allActions := s.allActions.set i (some noopStep) },
           (runFrom truthy fuel s).2) := by
  intro fuel
  induction fuel with
  | zero => intro s i hi; rfl
  | succ n ih =>
      intro s i hi
      have hnoop := iterate_noop_set truthy s i hi
      rcases hit : iterate truthy s with ⟨s1, st1⟩
      rw [hit] at hnoop
      have hall : s1.allActions = s.allActions := by
        have h2 := iterate_allActions truthy s
        rw [hit] at h2
        exact h2
      cases st1 with
      | running =>
          rw [runFrom_of_iterate_running truthy n _ _ hnoop,
              runFrom_of_iterate_running truthy n _ _ hit]
          rw [show s.allActions.set i (some noopStep)
                = s1.allActions.set i (some noopStep) from by rw [hall]]
          exact ih s1 i (by rw [hall]; exact hi)
      | resolved v =>
          rw [runFrom_of_iterate_resolved truthy n _ _ _ hnoop,
              runFrom_of_iterate_resolved truthy n _ _ _ hit]
      | rejected e =>
          rw [runFrom_of_iterate_rejected truthy n _ _ _ hnoop,
              runFrom_of_iterate_rejected truthy n _ _ _ hit]

/-- C9: a null/undefined entry of the step sequence is a permitted no-op:
replacing it by a synchronous action that performs no operation, returns
nothing and sets no `nextValue` changes nothing observable about any run —
same status (so reaching the null entry never fails the run), same
invocation trace (execution advances to the next index exactly as for such
a step), and the same final state apart from the replaced snapshot entry
itself. -/
theorem c9_null_entry_noop (truthy : α → Bool) (fuel : Nat) (s : RS α) (i : Nat)
    (hi : s.allActions.get? i = some none) :
    (runFrom truthy fuel { s with allActions := s.allActions.set i (some noopStep) }).2 = (runFrom truthy fuel s).2 ∧
    ((runFrom truthy fuel { s with allActions := s.allActions.set i (some noopStep) }).1).trace = ((runFrom truthy fuel s).1).trace ∧
    (runFrom truthy fuel { s with allActions := s.allActions.set i (some noopStep) }).1
      = { (runFrom truthy fuel s).1 with
          allActions := s.allActions.set i (some noopStep) } := by
  have h := runFrom_noop_set truthy fuel s i hi
  refine ⟨by rw [h], by rw [h], by rw [h]⟩

def c9wf : Workflow Nat := ⟨[none, some ⟨[.setResult (some 4)], .retVoid⟩], none⟩

/-- Witness for C9 at a concrete input: a run whose first entry is null
resolves with the second action's result, exactly as the run with the null
entry replaced by the do-nothing action does. -/
theorem c9_witness :
    (runFrom natTruthy 3 (initRS c9wf none)).2 = .resolved (some 4) ∧
    (runFrom natTruthy 3 { initRS c9wf none with
        allActions := (initRS c9wf none).allActions.set 0 (some noopStep) }).2
      = .resolved (some 4) := by
  have h := c9_null_entry_noop natTruthy 3 (initRS c9wf none) 0 (by decide)
  exact ⟨by decide, h.1.trans (by decide)⟩

/-! ### Straight-line runs execute in insertion order -/

/-- From a state whose pointer sits just before position `k` and whose
remaining entries are all tame (no pointer operation, error-free outcome),
the run invokes exactly positions `k, k+1, ...` in order and resolves with
the folded result. -/
theorem runFrom_tame (truthy : α → Bool) :
    ∀ (rest : List (Option (Step α))) (k : Nat) (s : RS α),
      s.allActions.drop k = rest →
      s.index = (k : Int) - 1 →
      (∀ e ∈ rest, tameEntry e = true) →
      ∃ t, runFrom truthy (rest.length + 1) s
          = (t, .resolved (rest.foldl stepRes (s.result, s.wf.state)).1)
        ∧ t.trace = s.trace ++ (List.range' k rest.length).map Int.ofNat := by
  intro rest
  induction rest with
  | nil =>
      intro k s hdrop hidx htame
      have hge : (s.allActions.length : Int) ≤ s.index + 1 := by
        have hlen : s.allActions.length ≤ k := List.drop_eq_nil_iff_le.mp hdrop
        omega
      refine ⟨s, ?_, by simp⟩
      simp only [List.length_nil]
      rw [runFrom_of_iterate_resolved truthy 0 s s s.result
            (iterate_resolved truthy s hge)]
      rfl
  | cons e rest2 ih =>
      intro k s hdrop hidx htame
      have hk : s.allActions.get? k = some e := by
        have h0 : (s.allActions.drop k).get? 0 = some e := by rw [hdrop]; rfl
        rw [List.get?_drop] at h0
        simpa using h0
      obtain ⟨hklen, -⟩ := List.get?_eq_some.mp hk
      have hlt : s.index + 1 < (s.allActions.length : Int) := by omega
      have hlook : lookupAction s.allActions (s.index + 1) = e := by
        rw [show s.index + 1 = ((k : Nat) : Int) from by omega]
        unfold lookupAction
        rw [if_neg (by omega), List.getD_eq_get?,
            show (((k : Nat) : Int).toNat) = k from rfl, hk]
        rfl
      have hdrop1 : s.allActions.drop (k + 1) = rest2 := by
        rw [← List.tail_drop, hdrop]
        rfl
      have main : ∃ s1, iterate truthy s = (s1, .running)
          ∧ (s1.result, s1.wf.state) = stepRes (s.result, s.wf.state) e
          ∧ s1.index = ((k + 1 : Nat) : Int) - 1
          ∧ s1.allActions = s.allActions
          ∧ s1.trace = s.trace ++ [Int.ofNat k] := by
        cases e with
        | none =>
            refine ⟨completed s (s.index + 1) (s.executions + 1) (stepStOf s) none,
              iterate_entry_none truthy s hlt hlook, rfl, ?_, rfl, ?_⟩
            · show s.index + 1 = ((k + 1 : Nat) : Int) - 1
              push_cast
              omega
            · show s.trace ++ [s.index + 1] = s.trace ++ [Int.ofNat k]
              rw [show Int.ofNat k = (k : Int) from rfl,
                  show s.index + 1 = (k : Int) from by omega]
        | some st =>
            have htm : tameEntry (some st) = true := htame (some st) (by simp)
            have hand := htm
            simp only [tameEntry, Bool.and_eq_true] at hand
            have hops : ∀ op ∈ st.ops, isIdxOp op = false := by
              have h2 := hand.1
              simp only [List.all_eq_true] at h2
              intro op hop
              have h3 := h2 op hop
              simpa using h3
            have hok : okOutcome st.outcome = true := hand.2
            have hnoidx := execOps_no_idxOp s.allActions.length st.ops (stepStOf s)
              (fun op hop => by simpa using hops op hop)
            rcases hEx : execOps s.allActions.length st.ops (stepStOf s) with ⟨t, e2⟩
            rw [hEx] at hnoidx
            have he2 : e2 = none := hnoidx.1
            subst he2
            obtain ⟨pv, hiter⟩ := iterate_ok_shape truthy s st t hlt hlook hEx hok
            have hresf := execOps_resFold s.allActions.length st.ops (stepStOf s) t hEx
            refine ⟨completed s (s.index + 1) (s.executions + 1) t pv,
              hiter, ?_, ?_, rfl, ?_⟩
            · exact hresf
            · show t.idx = ((k + 1 : Nat) : Int) - 1
              rw [hnoidx.2]
              show s.index + 1 = ((k + 1 : Nat) : Int) - 1
              push_cast
              omega
            · show s.trace ++ [s.index + 1] = s.trace ++ [Int.ofNat k]
              rw [show Int.ofNat k = (k : Int) from rfl,
                  show s.index + 1 = (k : Int) from by omega]
      obtain ⟨s1, hiter, hres, hidx1, hall1, htr1⟩ := main
      obtain ⟨t, hrun, htr⟩ := ih (k + 1) s1 (by rw [hall1]; exact hdrop1) hidx1
        (fun x hx => htame x (by simp [hx]))
      refine ⟨t, ?_, ?_⟩
      · rw [show (e :: rest2).length + 1 = (rest2.length + 1) + 1 from by simp,
            runFrom_of_iterate_running truthy (rest2.length + 1) s s1 hiter, hrun,
            List.foldl_cons, ← hres]
      · rw [htr, htr1]
        rw [show (e :: rest2).length = rest2.length + 1 from rfl, List.range'_succ]
        simp [List.append_assoc]

/-- C1: for a workflow all of whose entries are tame — no step calls
`finish`, `goto`, `gotoFirst` or `gotoLast`, none throws, none returns a
rejecting promise — `start()` invokes the steps in insertion order, each
exactly once (the trace is exactly `0, 1, ..., n-1`), and the returned
promise fulfills with the last value any step assigned to the context's
`result` field (`undefined` if no step ever assigned it), as computed by
folding the result assignments over the steps in order. -/
theorem c1_insertion_order (truthy : α → Bool) (wf : Workflow α) (iv : Option α)
    (htame : ∀ e ∈ wf.actions, tameEntry e = true) (fuel : Nat)
    (hfuel : wf.actions.length + 1 ≤ fuel) :
    (start truthy fuel wf iv).2
      = .resolved ((wf.actions.foldl stepRes (none, wf.state)).1) ∧
    ((start truthy fuel wf iv).1).trace
      = (List.range wf.actions.length).map Int.ofNat := by
  obtain ⟨t, hrun, htr⟩ := runFrom_tame truthy wf.actions 0 (initRS wf iv)
    rfl (by norm_num [initRS]) htame
  have hmono := runFrom_fuel_mono truthy (wf.actions.length + 1) fuel
    (initRS wf iv) t _ hrun (by simp) hfuel
  constructor
  · rw [show start truthy fuel wf iv = runFrom truthy fuel (initRS wf iv) from rfl,
        hmono]
    rfl
  · rw [show start truthy fuel wf iv = runFrom truthy fuel (initRS wf iv) from rfl,
        hmono]
    show t.trace = _
    rw [htr]
    rw [show (initRS wf iv).trace = ([] : List Int) from rfl, List.range_eq_range']
    rfl

def c1wf : Workflow Nat :=
  ⟨[some ⟨[.setResult (some 2)], .retVoid⟩, none,
    some ⟨[.setResult (some 7)], .fulfillArg (some 1)⟩], none⟩

/-- Witness for C1 at a concrete input: three tame entries (a synchronous
result assignment, a null entry, an asynchronous result assignment) run in
insertion order exactly once each, and the run resolves with the last
assigned result. -/
theorem c1_witness :
    (start natTruthy 4 c1wf none).2 = .resolved (some 7) ∧
    ((start natTruthy 4 c1wf none).1).trace = [0, 1, 2] := by
  have h := c1_insertion_order natTruthy c1wf none (by decide) 4 (by decide)
  exact ⟨h.1.trans (by decide), h.2.trans (by decide)⟩

end TsWorkflow
